import Mathlib

/-!
Verification of the evolutionary image-approximation core of the `nephos`
repository (src/image.rs, src/buffer.rs, src/util.rs, src/map.rs).

Shallow embedding conventions:
* `f32` values are modelled as real numbers (`ℝ`);
* `u32` fitness scores and pixel values are modelled as `ℕ`;
* GPU buffers are modelled as Lean lists of their element type;
* the random number generator of the Select stage is modelled as an abstract
  stream of draws (each `rng.random_range(-strength..strength)` call is one
  entry of the stream);
* a host-side panic (`expect`) is modelled as `Option.none`.

The WGSL compute shaders (`src/image/score/compare.wgsl`,
`src/image/score/reduce.wgsl`, `src/image/simulate.wgsl`,
`src/image/prime.wgsl`) are not part of the repository sources available
here; where a claim depends on the reduction kernel it is modelled from the
spec (see `Nephos.reduceKernel`).
-/

namespace Nephos

/-- glam `Vec2` with `f32` modelled as `ℝ`. -/
structure Vec2 where
  x : ℝ
  y : ℝ

/-- glam `Vec2::max`: componentwise maximum. -/
noncomputable def Vec2.max (u v : Vec2) : Vec2 :=
  ⟨Max.max u.x v.x, Max.max u.y v.y⟩

/-- glam `Vec3` (used for `Mat3` columns). -/
structure Vec3 where
  x : ℝ
  y : ℝ
  z : ℝ

/-- glam `Vec4` (used for the GPU-padded matrix columns of `WgpuMat3x3`). -/
structure Vec4 where
  x : ℝ
  y : ℝ
  z : ℝ
  w : ℝ

/-- glam `Vec2::extend`. -/
def Vec2.extend (v : Vec2) (z : ℝ) : Vec3 := ⟨v.x, v.y, z⟩

/-- glam `Vec3::extend`. -/
def Vec3.extend (v : Vec3) (w : ℝ) : Vec4 := ⟨v.x, v.y, v.z, w⟩

/-- glam `Vec4::truncate`. -/
def Vec4.truncate (v : Vec4) : Vec3 := ⟨v.x, v.y, v.z⟩

/-- The `x`/`y` components of a `Vec3` (glam `Vec3::truncate` / `.xy()`). -/
def Vec3.xy (v : Vec3) : Vec2 := ⟨v.x, v.y⟩

/-- glam `Mat2`, column-major: `xAxis` and `yAxis` are the two columns. -/
structure Mat2 where
  xAxis : Vec2
  yAxis : Vec2

/-- glam `Mat2::from_angle`: rotation matrix with columns
`(cos θ, sin θ)` and `(-sin θ, cos θ)`. -/
noncomputable def Mat2.fromAngle (θ : ℝ) : Mat2 :=
  ⟨⟨Real.cos θ, Real.sin θ⟩, ⟨-Real.sin θ, Real.cos θ⟩⟩

/-- glam `Mat2::from_diagonal`. -/
def Mat2.fromDiagonal (v : Vec2) : Mat2 := ⟨⟨v.x, 0⟩, ⟨0, v.y⟩⟩

/-- Matrix-vector product (column-major). -/
noncomputable def Mat2.mulVec (m : Mat2) (v : Vec2) : Vec2 :=
  ⟨m.xAxis.x * v.x + m.yAxis.x * v.y, m.xAxis.y * v.x + m.yAxis.y * v.y⟩

/-- Matrix-matrix product. -/
noncomputable def Mat2.mul (m n : Mat2) : Mat2 := ⟨m.mulVec n.xAxis, m.mulVec n.yAxis⟩

noncomputable instance : Mul Mat2 := ⟨Mat2.mul⟩

/-- Determinant of a `Mat2`. -/
noncomputable def Mat2.det (m : Mat2) : ℝ :=
  m.xAxis.x * m.yAxis.y - m.yAxis.x * m.xAxis.y

/-- glam `Affine2`: a linear part and a translation. -/
structure Affine2 where
  matrix2 : Mat2
  translation : Vec2

/-- glam `Affine2::from_mat2_translation`. -/
def Affine2.fromMat2Translation (m : Mat2) (t : Vec2) : Affine2 := ⟨m, t⟩

/-- glam `Mat3`, column-major. -/
structure Mat3 where
  xAxis : Vec3
  yAxis : Vec3
  zAxis : Vec3

/-- glam `Mat3::from(Affine2)`: the two linear columns extended by 0 and the
translation column extended by 1. -/
def Mat3.ofAffine2 (t : Affine2) : Mat3 :=
  ⟨t.matrix2.xAxis.extend 0, t.matrix2.yAxis.extend 0, t.translation.extend 1⟩

/-- glam `Affine2::from_mat3`: linear part from the first two columns,
translation from the third. -/
def Affine2.fromMat3 (m : Mat3) : Affine2 :=
  ⟨⟨m.xAxis.xy, m.yAxis.xy⟩, m.zAxis.xy⟩

/-- `WgpuMat3x3` from src/util.rs: three `Vec4` columns (each `Mat3` column
extended by 0 for GPU alignment). -/
structure WgpuMat3x3 where
  c0 : Vec4
  c1 : Vec4
  c2 : Vec4

/-- `impl From<Mat3> for WgpuMat3x3` (src/util.rs). -/
def WgpuMat3x3.ofMat3 (m : Mat3) : WgpuMat3x3 :=
  ⟨m.xAxis.extend 0, m.yAxis.extend 0, m.zAxis.extend 0⟩

/-- `impl From<WgpuMat3x3> for Mat3` (src/util.rs). -/
def Mat3.ofWgpu (w : WgpuMat3x3) : Mat3 :=
  ⟨w.c0.truncate, w.c1.truncate, w.c2.truncate⟩

/-- `AffineDecomposition` from src/image.rs. -/
structure AffineDecomposition where
  angle : ℝ
  shear : ℝ
  scale : Vec2
  translation : Vec2

/-- `Affine` from src/image.rs (the 8 padding bytes are omitted: they carry
no information). -/
structure Affine where
  decomposition : AffineDecomposition
  computed : WgpuMat3x3

/-- `AffineDecomposition::compose` (src/image.rs lines 51-70). The shear
construction is commented out in the source and therefore absent here. -/
noncomputable def AffineDecomposition.compose (self : AffineDecomposition) : Affine :=
  let rotation := Mat2.fromAngle self.angle
  let scale := Mat2.fromDiagonal (self.scale.max ⟨0.2, 0.2⟩)
  let affine := Affine2.fromMat2Translation (rotation * scale) self.translation
  { decomposition := self
    computed := WgpuMat3x3.ofMat3 (Mat3.ofAffine2 affine) }

/-- `IMAGE_SIZE` from src/image.rs. -/
def IMAGE_SIZE : ℕ := 256

/-- `Map` from src/map.rs. -/
structure Map where
  map : Affine2
  probability_weight : ℝ

/-- A grayscale image (`image::GrayImage`): dimensions plus the flat list of
8-bit luma samples. -/
structure GrayImage where
  width : ℕ
  height : ℕ
  pixels : List ℕ

/-- The three source-image assertions at the top of `Evolver::new`
(src/image.rs lines 108-110): `Evolver::new` panics unless all of them hold. -/
def evolverNewSourceAsserts (source : GrayImage) : Bool :=
  (source.width == IMAGE_SIZE) && (source.height == IMAGE_SIZE) &&
    source.pixels.all (fun p => [0, 255].contains p)

/-- The host-visible state of the `Evolver` relevant to the generation loop:
the `step: AtomicUsize` counter (initialized to 0 in `Evolver::new`). -/
structure EvolverState where
  step : ℕ

/-- `Evolver::new` sets `step: AtomicUsize::new(0)`. -/
def EvolverState.init : EvolverState := ⟨0⟩

/-- The effect of one `Evolver::step` call on the host state: the method
enqueues reset/step/render/rate/select work but performs no store or
fetch-add on the `step` counter, so the counter is unchanged. -/
def EvolverState.stepGen (st : EvolverState) : EvolverState := st

/-- The counter state at the start of generation `g` of `Evolver::evolve`
(which calls `Evolver::step` once per generation). -/
def stateAtGen (g : ℕ) : EvolverState :=
  Nat.rec EvolverState.init (fun _ st => st.stepGen) g

/-- The mutation strength computed by `Evolver::select_simulations`
(src/image.rs lines 280-281):
`mutation_strength * exp(-(step as f32 * mutation_damping))`. -/
noncomputable def selectStrength (mutationStrength mutationDamping : ℝ)
    (st : EvolverState) : ℝ :=
  mutationStrength * Real.exp (-((st.step : ℝ) * mutationDamping))

/-- The mutation strength actually used by the Select stage in generation `g`. -/
noncomputable def strengthAtGen (mutationStrength mutationDamping : ℝ) (g : ℕ) : ℝ :=
  selectStrength mutationStrength mutationDamping (stateAtGen g)

/-- Score lookup `scores[idx]`; every lookup performed by the Select stage is
in bounds, so the default value is never produced there. -/
def scoreAt (scores : List ℕ) (idx : ℕ) : ℕ := scores.getD idx 0

/-- The comparison used by `indices.sort_by_key(|&idx| cmp::Reverse(scores[idx]))`
(src/image.rs line 1101): `i` sorts no later than `j` when `scores[j] <= scores[i]`
(descending score). -/
def rankR (scores : List ℕ) (i j : ℕ) : Prop :=
  scoreAt scores j ≤ scoreAt scores i

instance (scores : List ℕ) : DecidableRel (rankR scores) :=
  fun i j => Nat.decLe (scoreAt scores j) (scoreAt scores i)

instance (scores : List ℕ) : IsTotal ℕ (rankR scores) :=
  ⟨fun i j => Nat.le_total (scoreAt scores j) (scoreAt scores i)⟩

instance (scores : List ℕ) : IsTrans ℕ (rankR scores) :=
  ⟨fun _ _ _ hab hbc => Nat.le_trans hbc hab⟩

/-- Stable-tie-break order: among equal scores, smaller (earlier) original
index first. -/
def stableR (scores : List ℕ) (i j : ℕ) : Prop :=
  scoreAt scores i = scoreAt scores j → i ≤ j

/-- The `indices` vector built by `Select::select` (src/image.rs lines
1098-1100): every map-set index `0..width` repeated `maps_per_set` times. -/
def repeatedIndices (width mapsPerSet : ℕ) : List ℕ :=
  (List.range width).flatMap (fun idx => List.replicate mapsPerSet idx)

/-- The `indices` vector after `indices.sort_by_key(|&idx| cmp::Reverse(scores[idx]))`.
Rust's `sort_by_key` is a stable sort; insertion sort is stable for the same
preorder, so it computes the same list. -/
def rankedIndices (scores : List ℕ) (mapsPerSet : ℕ) : List ℕ :=
  List.insertionSort (rankR scores) (repeatedIndices scores.length mapsPerSet)

/-- `map_sets[idx]`: the source materialises `map_sets = maps.chunks(maps_per_set)`
and indexes into it; the chunk at index `idx` is the `maps_per_set`-long slice
starting at `idx * maps_per_set`. -/
def mapSet (maps : List Affine) (mapsPerSet idx : ℕ) : List Affine :=
  (maps.drop (idx * mapsPerSet)).take mapsPerSet

/-- The `best_maps` vector of `Select::select` (src/image.rs lines 1102-1108):
the full map set of every (repeated) ranked index, concatenated, truncated to
`elite_len * maps_per_set` entries. -/
def bestMaps (eliteLen mapsPerSet : ℕ) (scores : List ℕ) (maps : List Affine) :
    List Affine :=
  ((rankedIndices scores mapsPerSet).flatMap (fun idx => mapSet maps mapsPerSet idx)).take
    (eliteLen * mapsPerSet)

/-- One mutated child (src/image.rs lines 1113-1135). `noise k` is the `k`-th
`rng.random_range(-mutation_strength..mutation_strength)` draw for this child,
in the evaluation order of the struct literal: angle, shear, scale.x, scale.y,
translation.x, translation.y. The angle perturbation is scaled by
`f32::consts::TAU = 2π`. -/
noncomputable def mutateChild (noise : Fin 6 → ℝ) (map : Affine) : Affine :=
  AffineDecomposition.compose
    { angle := map.decomposition.angle + noise 0 * (2 * Real.pi)
      shear := map.decomposition.shear + noise 1
      scale := ⟨map.decomposition.scale.x + noise 2, map.decomposition.scale.y + noise 3⟩
      translation := ⟨map.decomposition.translation.x + noise 4,
        map.decomposition.translation.y + noise 5⟩ }

/-- One mutation round: one mutated child per elite-pool entry, in order.
`noiseRound i` is the block of six draws consumed for the `i`-th entry. -/
noncomputable def mutateRound (noiseRound : ℕ → Fin 6 → ℝ) (best : List Affine) :
    List Affine :=
  best.mapIdx (fun i map => mutateChild (noiseRound i) map)

/-- The `children` vector of `Select::select` (src/image.rs lines 1110-1137):
the elite pool followed by `n_children` mutation rounds over it. `noise` is
the abstract rng stream, indexed by (round, entry); each draw is consumed by
exactly one child field, so this indexing is a faithful re-indexing of the
sequential draws. -/
noncomputable def childrenOf (nChildren : ℕ) (noise : ℕ → ℕ → Fin 6 → ℝ)
    (best : List Affine) : List Affine :=
  best ++ (List.range nChildren).flatMap (fun round => mutateRound (noise round) best)

/-- The host-side computation of `Select::select` (src/image.rs lines
1090-1143): from downloaded scores and population, the full next-generation
population written back to the GPU population buffer in one
`queue.write_buffer` call. `mutationStrength` only bounds the rng draws, which
are abstracted by `noise`. -/
noncomputable def selectHost (eliteLen mapsPerSet nChildren : ℕ)
    (mutationStrength : ℝ) (noise : ℕ → ℕ → Fin 6 → ℝ)
    (scores : List ℕ) (maps : List Affine) : List Affine :=
  childrenOf nChildren noise (bestMaps eliteLen mapsPerSet scores maps)

/-- The observable outcome of the async body of `Select::select`: each
`Buffer::download` (src/buffer.rs lines 68-98) either yields data or panics
(`expect`, modelled `none`). A panic aborts the async task before
`queue.write_buffer` is reached, so no write happens; otherwise the single
bulk write of the whole `children` vector is issued. -/
noncomputable def selectRun (eliteLen mapsPerSet nChildren : ℕ)
    (mutationStrength : ℝ) (noise : ℕ → ℕ → Fin 6 → ℝ)
    (scoresDl : Option (List ℕ)) (mapsDl : Option (List Affine)) :
    Option (List Affine) :=
  match scoresDl, mapsDl with
  | some scores, some maps =>
      some (selectHost eliteLen mapsPerSet nChildren mutationStrength noise scores maps)
  | _, _ => none

/-- `ReduceBufferPair` from src/image.rs: the double-buffered reduction pair,
`a` holding the active role and `b` the scratch role. -/
structure ReduceBufferPair where
  a : List ℕ
  b : List ℕ

/-- `ReduceBufferPair::swap` (src/image.rs lines 714-719). -/
def ReduceBufferPair.swap (p : ReduceBufferPair) : ReduceBufferPair := ⟨p.b, p.a⟩

/-- Modelled from the spec: the reduction kernel
(`src/image/score/reduce.wgsl`, not among the repository sources). One pass
with `n` output elements combines adjacent pairs of the source buffer:
`dst[i] = src[2*i] + src[2*i+1]` for `i < n`; the rest of `dst` is untouched. -/
def reduceKernel (n : ℕ) (src dst : List ℕ) : List ℕ :=
  (List.range dst.length).map
    (fun i => if i < n then scoreAt src (2 * i) + scoreAt src (2 * i + 1) else scoreAt dst i)

/-- `Rate::reduce_all_once` (src/image.rs lines 998-1027): dispatch the
reduction kernel reading the active buffer and writing the scratch buffer,
then swap the roles. -/
def reduceOnce (n : ℕ) (p : ReduceBufferPair) : ReduceBufferPair :=
  ReduceBufferPair.swap ⟨p.a, reduceKernel n p.a p.b⟩

/-- The pass sizes of `Rate::reduce_all`:
`itertools::iterate(start, |&n| n / 2).take_while(|&n| n != 0)`. -/
def halvings : ℕ → List ℕ
  | 0 => []
  | n + 1 => (n + 1) :: halvings ((n + 1) / 2)
termination_by n => n
decreasing_by exact Nat.div_lt_self (Nat.succ_pos n) Nat.one_lt_two

/-- `Rate::reduce_all` (src/image.rs lines 1029-1036): one `reduce_all_once`
pass for every element of the halving sequence starting at
`IMAGE_SIZE * IMAGE_SIZE / 2`. -/
def reduceAll (p : ReduceBufferPair) : ReduceBufferPair :=
  (halvings (IMAGE_SIZE * IMAGE_SIZE / 2)).foldl (fun st n => reduceOnce n st) p

/-- The reduce-buffer pair with physical buffer identity made explicit:
`physX`/`physY` are the two buffers allocated in `Rate::new`, and `aIsX`
records which physical buffer the `a` (active) field currently denotes. -/
structure PhysPair where
  physX : List ℕ
  physY : List ℕ
  aIsX : Bool

/-- The contents of the buffer currently holding the active (`a`) role. -/
def PhysPair.roleA (p : PhysPair) : List ℕ := if p.aIsX then p.physX else p.physY

/-- The contents of the buffer currently holding the scratch (`b`) role. -/
def PhysPair.roleB (p : PhysPair) : List ℕ := if p.aIsX then p.physY else p.physX

/-- One reduction pass on the physical view: the kernel reads the active
buffer and writes the scratch buffer in place, then the role assignment
flips (`ReduceBufferPair::swap` exchanges the handles). -/
def PhysPair.reduceOnce (n : ℕ) (p : PhysPair) : PhysPair :=
  if p.aIsX then ⟨p.physX, reduceKernel n p.physX p.physY, false⟩
  else ⟨reduceKernel n p.physY p.physX, p.physY, true⟩

/-- `Rate::reduce_all` on the physical view. -/
def PhysPair.reduceAll (p : PhysPair) : PhysPair :=
  (halvings (IMAGE_SIZE * IMAGE_SIZE / 2)).foldl (fun st n => st.reduceOnce n) p

/-- The score consumed by Select: `Evolver::select_simulations` copies the
first `u32` of the role-`a` buffer into the score buffer. -/
def PhysPair.score (p : PhysPair) : ℕ := p.roleA.getD 0 0

/-- Projection of the physical view onto the logical `ReduceBufferPair`. -/
def PhysPair.toPair (p : PhysPair) : ReduceBufferPair := ⟨p.roleA, p.roleB⟩

/-- `Evolver::get_best_map_set` (src/image.rs lines 338-354): slice the first
`maps_per_set` entries of the downloaded population (the slice panics, modelled
`none`, when the population is shorter) and convert each to a `Map` built from
its composed matrix with `probability_weight: 1.0`. -/
def getBestMapSet (mapsPerSet : ℕ) (maps : List Affine) : Option (List Map) :=
  if mapsPerSet ≤ maps.length then
    some ((maps.take mapsPerSet).map
      (fun affine => { map := Affine2.fromMat3 (Mat3.ofWgpu affine.computed)
                       probability_weight := 1 }))
  else none

/-- A placeholder computed matrix for concrete test populations (the Select
stage moves `Affine` values without reading `computed`). -/
def zeroW : WgpuMat3x3 := ⟨⟨0, 0, 0, 0⟩, ⟨0, 0, 0, 0⟩, ⟨0, 0, 0, 0⟩⟩

/-- A concrete `Affine` distinguishable by its angle field, for concrete
evaluations of the Select stage. -/
def testAffine (k : ℕ) : Affine :=
  ⟨⟨(k : ℝ), 0, ⟨1, 1⟩, ⟨0, 0⟩⟩, zeroW⟩

lemma Mat2.mul_def (m n : Mat2) : m * n = Mat2.mul m n := rfl

lemma det_fromAngle_mul_fromDiagonal (θ : ℝ) (v : Vec2) :
    Mat2.det (Mat2.fromAngle θ * Mat2.fromDiagonal v)
      = v.x * v.y * (Real.sin θ ^ 2 + Real.cos θ ^ 2) := by
  simp only [Mat2.det, Mat2.fromAngle, Mat2.fromDiagonal, Mat2.mul_def, Mat2.mul,
    Mat2.mulVec]
  ring

/-- The `step` counter of the `Evolver` is never written after construction,
so it is `0` at the start of every generation. -/
lemma stateAtGen_eq_init (g : ℕ) : stateAtGen g = EvolverState.init := by
  induction g with
  | zero => rfl
  | succ g ih => exact ih

/-- C2. The claim states that the mutation strength used by the Select stage
in generation `g` equals `mutation_strength_0 * exp(-g * mutation_damping)`,
strictly decreasing for positive damping. In the code the `step` counter that
feeds the formula is never incremented, so the strength is the constant
`mutation_strength_0` for every generation; already at generation 1 it
differs from the claimed value. -/
theorem claim_C2 :
    (∀ (s0 d : ℝ) (g : ℕ), strengthAtGen s0 d g = s0) ∧
    strengthAtGen 1 (2 / 100) 1 ≠ 1 * Real.exp (-((1 : ℝ) * (2 / 100))) := by
  have hconst : ∀ (s0 d : ℝ) (g : ℕ), strengthAtGen s0 d g = s0 := by
    intro s0 d g
    rw [strengthAtGen, stateAtGen_eq_init]
    simp [selectStrength, EvolverState.init]
  refine ⟨hconst, ?_⟩
  rw [hconst, one_mul]
  refine ne_of_gt ?_
  rw [Real.exp_lt_one_iff]
  norm_num

/-- C6. `compose` keeps the decomposition, computes the matrix of the affine
map with linear part `R(angle) * diag(max(scale.x, 0.2), max(scale.y, 0.2))`
and translation `translation`, ignores the shear field, and the composed
linear part always has nonzero determinant (no degenerate map). -/
theorem claim_C6 (d : AffineDecomposition) :
    d.compose.decomposition = d ∧
    d.compose.computed = WgpuMat3x3.ofMat3 (Mat3.ofAffine2
      ⟨Mat2.fromAngle d.angle
          * Mat2.fromDiagonal ⟨Max.max d.scale.x 0.2, Max.max d.scale.y 0.2⟩,
        d.translation⟩) ∧
    (∀ s : ℝ, (AffineDecomposition.mk d.angle s d.scale d.translation).compose.computed
        = d.compose.computed) ∧
    (Affine2.fromMat3 (Mat3.ofWgpu d.compose.computed)).matrix2.det ≠ 0 := by
  refine ⟨rfl, rfl, fun s => rfl, ?_⟩
  have hround : (Affine2.fromMat3 (Mat3.ofWgpu d.compose.computed)).matrix2
      = Mat2.fromAngle d.angle * Mat2.fromDiagonal (d.scale.max ⟨0.2, 0.2⟩) := rfl
  rw [hround, det_fromAngle_mul_fromDiagonal, Real.sin_sq_add_cos_sq, mul_one]
  have hx : (0 : ℝ) < Max.max d.scale.x 0.2 :=
    lt_of_lt_of_le (by norm_num) (le_max_right _ _)
  have hy : (0 : ℝ) < Max.max d.scale.y 0.2 :=
    lt_of_lt_of_le (by norm_num) (le_max_right _ _)
  exact ne_of_gt (mul_pos hx hy)

/-- C10. `Evolver::new`'s assertions accept the source image exactly when it
is 256×256 and every pixel is 0 or 255; under that precondition none of the
three assertions fires. -/
theorem claim_C10 (img : GrayImage) :
    evolverNewSourceAsserts img = true ↔
      (img.width = 256 ∧ img.height = 256 ∧ ∀ p ∈ img.pixels, p = 0 ∨ p = 255) := by
  simp [evolverNewSourceAsserts, IMAGE_SIZE, List.all_eq_true, and_assoc]

/-- Inserting `x` into a list whose members all originally came after `x`
(so `x ≤ b` in original-index order) preserves the stable-tie-break
pairwise property. -/
lemma orderedInsert_stable (scores : List ℕ) (x : ℕ) :
    ∀ l : List ℕ, l.Pairwise (stableR scores) → (∀ b ∈ l, x ≤ b) →
      (List.orderedInsert (rankR scores) x l).Pairwise (stableR scores) := by
  intro l
  induction l with
  | nil =>
    intro _ _
    simp [List.orderedInsert, List.pairwise_singleton]
  | cons b l ih =>
    intro hp hx
    simp only [List.orderedInsert]
    by_cases h : rankR scores x b
    · rw [if_pos h]
      refine List.pairwise_cons.mpr ⟨?_, hp⟩
      intro c hc
      exact fun _ => hx c hc
    · rw [if_neg h]
      rcases List.pairwise_cons.mp hp with ⟨hb, hl⟩
      refine List.pairwise_cons.mpr
        ⟨?_, ih hl (fun c hc => hx c (List.mem_cons_of_mem b hc))⟩
      intro c hc
      rcases (List.mem_orderedInsert (rankR scores)).mp hc with rfl | hcl
      · intro heq
        exact absurd (show rankR scores c b from le_of_eq heq) h
      · exact hb c hcl

/-- Insertion sort with the descending-score preorder is stable: on an input
listed in increasing original-index order, entries with equal scores stay in
increasing index order. -/
lemma insertionSort_stable (scores : List ℕ) :
    ∀ l : List ℕ, l.Pairwise (· ≤ ·) →
      (List.insertionSort (rankR scores) l).Pairwise (stableR scores) := by
  intro l
  induction l with
  | nil =>
    intro _
    simp [List.insertionSort]
  | cons x l ih =>
    intro h
    rcases List.pairwise_cons.mp h with ⟨hx, hl⟩
    rw [List.insertionSort]
    exact orderedInsert_stable scores x _ (ih hl)
      (fun b hb => hx b ((List.mem_insertionSort (rankR scores)).mp hb))

/-- The `indices` vector is listed in nondecreasing index order. -/
lemma repeatedIndices_pairwise (w m : ℕ) : (repeatedIndices w m).Pairwise (· ≤ ·) := by
  rw [repeatedIndices, List.pairwise_flatMap]
  refine ⟨fun a _ => List.pairwise_replicate.mpr (Or.inr le_rfl), ?_⟩
  refine List.Pairwise.imp ?_ (List.pairwise_lt_range w)
  intro a b hab p hp q hq
  rw [List.eq_of_mem_replicate hp, List.eq_of_mem_replicate hq]
  exact Nat.le_of_lt hab

/-- C7. The ranking step of the Select stage sorts the (repeated) map-set
indices by descending score; indices with equal scores keep their original
relative order (stable tie-break by original index); and the ranking is a
permutation of the index list it sorts. -/
theorem claim_C7 (scores : List ℕ) (mapsPerSet : ℕ) :
    List.Sorted (rankR scores) (rankedIndices scores mapsPerSet) ∧
    (rankedIndices scores mapsPerSet).Pairwise (stableR scores) ∧
    (rankedIndices scores mapsPerSet).Perm (repeatedIndices scores.length mapsPerSet) := by
  refine ⟨List.sorted_insertionSort _ _, ?_, List.perm_insertionSort _ _⟩
  exact insertionSort_stable scores _ (repeatedIndices_pairwise _ _)

/-- C1. The claim states that with `elite_len = 2`, `maps_per_set = 2` and
`n_children = 0`, the new population should be the two top-ranked map sets in
ranked order. On scores `[0, 1]` and population `[S0, S1]` with
`S0 = [testAffine 0, testAffine 1]` and `S1 = [testAffine 2, testAffine 3]`,
the code instead emits the best set twice (`[S1, S1]`), because the index
vector repeats every map-set index `maps_per_set` times and each repeated
index is then expanded to the full map set again. -/
theorem claim_C1 :
    selectHost 2 2 0 1 (fun _ _ _ => 0) [0, 1]
        [testAffine 0, testAffine 1, testAffine 2, testAffine 3]
      = [testAffine 2, testAffine 3, testAffine 2, testAffine 3] ∧
    selectHost 2 2 0 1 (fun _ _ _ => 0) [0, 1]
        [testAffine 0, testAffine 1, testAffine 2, testAffine 3]
      ≠ [testAffine 2, testAffine 3, testAffine 0, testAffine 1] := by
  have hval : selectHost 2 2 0 1 (fun _ _ _ => 0) [0, 1]
      [testAffine 0, testAffine 1, testAffine 2, testAffine 3]
      = [testAffine 2, testAffine 3, testAffine 2, testAffine 3] := by rfl
  refine ⟨hval, ?_⟩
  rw [hval]
  intro h
  simp only [testAffine, List.cons.injEq, Affine.mk.injEq,
    AffineDecomposition.mk.injEq] at h
  have h20 : ((2 : ℕ) : ℝ) = ((0 : ℕ) : ℝ) := h.2.2.1.1.1
  norm_num at h20

lemma repeatedIndices_length (w m : ℕ) : (repeatedIndices w m).length = w * m := by
  rw [repeatedIndices, List.length_flatMap]
  have : (List.range w).map (List.length ∘ fun idx => List.replicate m idx)
      = (List.range w).map (fun _ => m) := by
    apply List.map_congr_left
    intro a _
    simp
  rw [this, List.map_const', List.sum_const_nat, List.length_range]

lemma mem_repeatedIndices {w m idx : ℕ} (h : idx ∈ repeatedIndices w m) : idx < w := by
  rw [repeatedIndices, List.mem_flatMap] at h
  obtain ⟨a, ha, hidx⟩ := h
  rw [List.eq_of_mem_replicate hidx]
  exact List.mem_range.mp ha

lemma rankedIndices_length (scores : List ℕ) (m : ℕ) :
    (rankedIndices scores m).length = scores.length * m := by
  rw [rankedIndices, List.length_insertionSort, repeatedIndices_length]

lemma mem_rankedIndices {scores : List ℕ} {m idx : ℕ} (h : idx ∈ rankedIndices scores m) :
    idx < scores.length :=
  mem_repeatedIndices ((List.mem_insertionSort (rankR scores)).mp h)

lemma mapSet_length {maps : List Affine} {w m : ℕ} (hm : maps.length = w * m)
    {idx : ℕ} (hidx : idx < w) : (mapSet maps m idx).length = m := by
  rw [mapSet, List.length_take, List.length_drop, hm]
  have h2 : m + idx * m ≤ w * m := by
    calc m + idx * m = (idx + 1) * m := by ring
    _ ≤ w * m := Nat.mul_le_mul (Nat.succ_le_of_lt hidx) (le_refl m)
  exact Nat.min_eq_left (Nat.le_sub_of_add_le h2)

lemma bestMaps_length {eliteLen m nChildren : ℕ} {scores : List ℕ} {maps : List Affine}
    (hs : scores.length = eliteLen * (1 + nChildren))
    (hm : maps.length = scores.length * m) :
    (bestMaps eliteLen m scores maps).length = eliteLen * m := by
  rw [bestMaps, List.length_take]
  have hflat : ((rankedIndices scores m).flatMap (fun idx => mapSet maps m idx)).length
      = scores.length * m * m := by
    rw [List.length_flatMap]
    have hmap : (rankedIndices scores m).map (List.length ∘ fun idx => mapSet maps m idx)
        = (rankedIndices scores m).map (fun _ => m) := by
      apply List.map_congr_left
      intro idx hidx
      exact mapSet_length hm (mem_rankedIndices hidx)
    rw [hmap, List.map_const', List.sum_const_nat, rankedIndices_length]
  rw [hflat]
  rcases Nat.eq_zero_or_pos m with rfl | hmpos
  · simp
  · have h1 : eliteLen ≤ scores.length := by
      rw [hs]
      exact Nat.le_mul_of_pos_right eliteLen (by omega)
    have h2 : eliteLen * m ≤ scores.length * m * m := by
      calc eliteLen * m ≤ scores.length * m := Nat.mul_le_mul h1 (le_refl m)
      _ = scores.length * m * 1 := by ring
      _ ≤ scores.length * m * m := Nat.mul_le_mul (le_refl _) hmpos
    exact Nat.min_eq_left h2

lemma childrenOf_length (nChildren : ℕ) (noise : ℕ → ℕ → Fin 6 → ℝ)
    (best : List Affine) :
    (childrenOf nChildren noise best).length = best.length * (1 + nChildren) := by
  rw [childrenOf, List.length_append, List.length_flatMap]
  have : (List.range nChildren).map (List.length ∘ fun round => mutateRound (noise round) best)
      = (List.range nChildren).map (fun _ => best.length) := by
    apply List.map_congr_left
    intro r _
    simp [mutateRound]
  rw [this, List.map_const', List.sum_const_nat, List.length_range]
  ring

lemma selectHost_length {eliteLen m nChildren : ℕ} (mutationStrength : ℝ)
    (noise : ℕ → ℕ → Fin 6 → ℝ) {scores : List ℕ} {maps : List Affine}
    (hs : scores.length = eliteLen * (1 + nChildren))
    (hm : maps.length = scores.length * m) :
    (selectHost eliteLen m nChildren mutationStrength noise scores maps).length
      = eliteLen * (1 + nChildren) * m := by
  rw [selectHost, childrenOf_length, bestMaps_length hs hm]
  ring

/-- C3. After one Select cycle the written-back population holds exactly
`elite_len * (1 + n_children)` map sets of `maps_per_set` entries each, i.e.
exactly as many `Affine` entries as the population buffer it overwrites. -/
theorem claim_C3 (eliteLen mapsPerSet nChildren : ℕ) (mutationStrength : ℝ)
    (noise : ℕ → ℕ → Fin 6 → ℝ) (scores : List ℕ) (maps : List Affine)
    (hs : scores.length = eliteLen * (1 + nChildren))
    (hm : maps.length = scores.length * mapsPerSet) :
    (selectHost eliteLen mapsPerSet nChildren mutationStrength noise scores maps).length
        = eliteLen * (1 + nChildren) * mapsPerSet ∧
    (selectHost eliteLen mapsPerSet nChildren mutationStrength noise scores maps).length
        = maps.length := by
  have h := selectHost_length mutationStrength noise hs hm
  exact ⟨h, by rw [h, hm, hs]⟩

theorem claim_C3_witness :
    ([(0 : ℕ), 0] : List ℕ).length = 1 * (1 + 1) ∧
    ([testAffine 0, testAffine 1] : List Affine).length = ([(0 : ℕ), 0] : List ℕ).length * 1 ∧
    ((selectHost 1 1 1 1 (fun _ _ _ => 0) [0, 0] [testAffine 0, testAffine 1]).length
        = 1 * (1 + 1) * 1 ∧
      (selectHost 1 1 1 1 (fun _ _ _ => 0) [0, 0] [testAffine 0, testAffine 1]).length
        = ([testAffine 0, testAffine 1] : List Affine).length) :=
  ⟨rfl, rfl, claim_C3 1 1 1 1 (fun _ _ _ => 0) [0, 0] [testAffine 0, testAffine 1] rfl rfl⟩

/-- C8. If either host-side download of `Select::select` fails (panics), no
population write is issued at all; on success exactly one bulk write is
issued, whose contents have exactly the length of the population buffer, so
the buffer is never left partially updated. -/
theorem claim_C8 (eliteLen mapsPerSet nChildren : ℕ) (mutationStrength : ℝ)
    (noise : ℕ → ℕ → Fin 6 → ℝ) (scores : List ℕ) (maps : List Affine)
    (hs : scores.length = eliteLen * (1 + nChildren))
    (hm : maps.length = scores.length * mapsPerSet) :
    (∀ mapsDl,
      selectRun eliteLen mapsPerSet nChildren mutationStrength noise none mapsDl = none) ∧
    (∀ scoresDl,
      selectRun eliteLen mapsPerSet nChildren mutationStrength noise scoresDl none = none) ∧
    selectRun eliteLen mapsPerSet nChildren mutationStrength noise (some scores) (some maps)
      = some (selectHost eliteLen mapsPerSet nChildren mutationStrength noise scores maps) ∧
    (selectHost eliteLen mapsPerSet nChildren mutationStrength noise scores maps).length
      = maps.length := by
  refine ⟨fun mapsDl => by cases mapsDl <;> rfl,
    fun scoresDl => by cases scoresDl <;> rfl, rfl, ?_⟩
  rw [selectHost_length mutationStrength noise hs hm, hm, hs]

theorem claim_C8_witness :
    ([(5 : ℕ)] : List ℕ).length = 1 * (1 + 0) ∧
    ([testAffine 4, testAffine 5] : List Affine).length = ([(5 : ℕ)] : List ℕ).length * 2 ∧
    ((∀ mapsDl, selectRun 1 2 0 1 (fun _ _ _ => 0) none mapsDl = none) ∧
      (∀ scoresDl, selectRun 1 2 0 1 (fun _ _ _ => 0) scoresDl none = none) ∧
      selectRun 1 2 0 1 (fun _ _ _ => 0) (some [5]) (some [testAffine 4, testAffine 5])
        = some (selectHost 1 2 0 1 (fun _ _ _ => 0) [5] [testAffine 4, testAffine 5]) ∧
      (selectHost 1 2 0 1 (fun _ _ _ => 0) [5] [testAffine 4, testAffine 5]).length
        = ([testAffine 4, testAffine 5] : List Affine).length) :=
  ⟨rfl, rfl, claim_C8 1 2 0 1 (fun _ _ _ => 0) [5] [testAffine 4, testAffine 5] rfl rfl⟩

/-- C9. On a population at least `maps_per_set` long, `get_best_map_set`
returns exactly the first `maps_per_set` entries (the map set at index 0),
each converted to its composed affine transform, and every returned `Map`
carries `probability_weight = 1.0`. -/
theorem claim_C9 (mapsPerSet : ℕ) (maps : List Affine) (h : mapsPerSet ≤ maps.length) :
    ∃ l, getBestMapSet mapsPerSet maps = some l ∧ l.length = mapsPerSet ∧
      (∀ i, i < mapsPerSet →
        l[i]? = (maps[i]?).map (fun affine =>
          { map := Affine2.fromMat3 (Mat3.ofWgpu affine.computed)
            probability_weight := 1 })) ∧
      (∀ mp ∈ l, mp.probability_weight = 1) := by
  have hsome : getBestMapSet mapsPerSet maps
      = some ((maps.take mapsPerSet).map (fun affine =>
          { map := Affine2.fromMat3 (Mat3.ofWgpu affine.computed)
            probability_weight := 1 })) := by
    unfold getBestMapSet
    rw [if_pos h]
  refine ⟨_, hsome, ?_, ?_, ?_⟩
  · rw [List.length_map, List.length_take]
    exact Nat.min_eq_left h
  · intro i hi
    rw [List.getElem?_map, List.getElem?_take_of_lt hi]
  · intro mp hmp
    rcases List.mem_map.mp hmp with ⟨a, -, rfl⟩
    rfl

theorem claim_C9_witness :
    1 ≤ ([testAffine 6] : List Affine).length ∧
    (∃ l, getBestMapSet 1 [testAffine 6] = some l ∧ l.length = 1 ∧
      (∀ i, i < 1 →
        l[i]? = (([testAffine 6] : List Affine)[i]?).map (fun affine =>
          { map := Affine2.fromMat3 (Mat3.ofWgpu affine.computed)
            probability_weight := 1 })) ∧
      (∀ mp ∈ l, mp.probability_weight = 1)) :=
  ⟨by simp, claim_C9 1 [testAffine 6] (by simp)⟩

lemma halvings_pos {n : ℕ} (h : n ≠ 0) : halvings n = n :: halvings (n / 2) := by
  cases n with
  | zero => exact absurd rfl h
  | succ k => simp [halvings]

lemma halvings_two_pow_length (k : ℕ) : (halvings (2 ^ k)).length = k + 1 := by
  induction k with
  | zero => norm_num [halvings]
  | succ k ih =>
    have e : 2 ^ (k + 1) / 2 = 2 ^ k := by
      rw [Nat.pow_succ, Nat.mul_div_cancel _ (by norm_num : 0 < 2)]
    rw [halvings_pos (pow_pos (by norm_num : (0 : ℕ) < 2) (k + 1)).ne', e,
      List.length_cons, ih]

lemma reduceOnce_a_length (n : ℕ) (p : ReduceBufferPair) :
    (reduceOnce n p).a.length = p.b.length := by
  simp [reduceOnce, ReduceBufferPair.swap, reduceKernel]

lemma reduceOnce_b_length (n : ℕ) (p : ReduceBufferPair) :
    (reduceOnce n p).b.length = p.a.length := rfl

lemma reduceKernel_take {n : ℕ} {src dst : List ℕ} (h : n ≤ dst.length) :
    (reduceKernel n src dst).take n
      = (List.range n).map (fun i => scoreAt src (2 * i) + scoreAt src (2 * i + 1)) := by
  rw [reduceKernel, ← List.map_take, List.take_range, Nat.min_eq_left h]
  apply List.map_congr_left
  intro i hi
  rw [if_pos (List.mem_range.mp hi)]

lemma range_pair_sum :
    ∀ (n : ℕ) (src : List ℕ), 2 * n ≤ src.length →
      ((List.range n).map (fun i => scoreAt src (2 * i) + scoreAt src (2 * i + 1))).sum
        = (src.take (2 * n)).sum := by
  intro n
  induction n with
  | zero =>
    intro src _
    simp
  | succ n ih =>
    intro src h
    have h1 : 2 * n < src.length := by omega
    have h2 : 2 * n + 1 < src.length := by omega
    rw [List.range_succ, List.map_append, List.sum_append, ih src (by omega)]
    have e : 2 * (n + 1) = (2 * n + 1) + 1 := by ring
    rw [e, List.take_succ, List.sum_append, List.take_succ, List.sum_append]
    rw [List.getElem?_eq_getElem h2, List.getElem?_eq_getElem h1]
    simp only [List.map_cons, List.map_nil, List.sum_cons, List.sum_nil, scoreAt,
      List.getD_eq_getElem?_getD, List.getElem?_eq_getElem, h1, h2, Option.getD_some,
      Option.toList_some]
    omega

lemma reduceOnce_take_sum {n : ℕ} {p : ReduceBufferPair}
    (ha : 2 * n ≤ p.a.length) (hb : n ≤ p.b.length) :
    ((reduceOnce n p).a.take n).sum = (p.a.take (2 * n)).sum := by
  show ((reduceKernel n p.a p.b).take n).sum = _
  rw [reduceKernel_take hb, range_pair_sum n p.a ha]

lemma foldl_halvings_sum :
    ∀ (k : ℕ) (p : ReduceBufferPair) (N : ℕ), p.a.length = N → p.b.length = N →
      2 ^ (k + 1) ≤ N →
      ((((halvings (2 ^ k)).foldl (fun st n => reduceOnce n st) p).a.take 1).sum
          = (p.a.take (2 ^ (k + 1))).sum) ∧
      ((halvings (2 ^ k)).foldl (fun st n => reduceOnce n st) p).a.length = N ∧
      ((halvings (2 ^ k)).foldl (fun st n => reduceOnce n st) p).b.length = N := by
  intro k
  induction k with
  | zero =>
    intro p N ha hb hN
    have hN2 : 2 ≤ N := by simpa using hN
    have h1 : halvings (2 ^ 0) = [1] := by norm_num [halvings]
    rw [h1]
    simp only [List.foldl_cons, List.foldl_nil]
    refine ⟨?_, ?_, ?_⟩
    · rw [reduceOnce_take_sum (by omega) (by omega)]
      norm_num
    · rw [reduceOnce_a_length, hb]
    · rw [reduceOnce_b_length, ha]
  | succ k ih =>
    intro p N ha hb hN
    have hdiv : 2 ^ (k + 1) / 2 = 2 ^ k := by
      rw [Nat.pow_succ, Nat.mul_div_cancel _ (by norm_num : 0 < 2)]
    rw [halvings_pos (pow_pos (by norm_num : (0 : ℕ) < 2) (k + 1)).ne', hdiv]
    simp only [List.foldl_cons]
    have hqa : (reduceOnce (2 ^ (k + 1)) p).a.length = N := by
      rw [reduceOnce_a_length, hb]
    have hqb : (reduceOnce (2 ^ (k + 1)) p).b.length = N := by
      rw [reduceOnce_b_length, ha]
    have hk : 2 ^ (k + 1) ≤ N :=
      le_trans (Nat.pow_le_pow_right (by norm_num) (by omega)) hN
    obtain ⟨hsum, hla, hlb⟩ := ih (reduceOnce (2 ^ (k + 1)) p) N hqa hqb hk
    refine ⟨?_, hla, hlb⟩
    rw [hsum]
    have e2 : 2 ^ (k + 1 + 1) = 2 * 2 ^ (k + 1) := by ring
    rw [e2]
    refine reduceOnce_take_sum ?_ ?_
    · rw [ha]
      rw [e2] at hN
      exact hN
    · rw [hb]
      exact hk

lemma take_one_sum (l : List ℕ) : (l.take 1).sum = l.getD 0 0 := by
  cases l <;> simp

/-- The single remaining value after `Rate::reduce_all` is the sum of the
65536 per-pixel values that `compare_all` wrote into the active buffer
(and the buffer lengths are preserved). -/
lemma reduceAll_sum {p : ReduceBufferPair} (ha : p.a.length = 65536)
    (hb : p.b.length = 65536) :
    (reduceAll p).a.getD 0 0 = p.a.sum ∧ (reduceAll p).a.length = 65536 := by
  have h15 : IMAGE_SIZE * IMAGE_SIZE / 2 = 2 ^ 15 := by norm_num [IMAGE_SIZE]
  obtain ⟨hsum, hla, hlb⟩ :=
    foldl_halvings_sum 15 p 65536 ha hb (by norm_num)
  have e : reduceAll p = (halvings (2 ^ 15)).foldl (fun st n => reduceOnce n st) p := by
    rw [reduceAll, h15]
  refine ⟨?_, by rw [e]; exact hla⟩
  rw [e, ← take_one_sum, hsum, show (2 : ℕ) ^ (15 + 1) = 65536 by norm_num, ← ha,
    List.take_length]

/-- C4. `reduce_all` performs `ceil(log2(pixel_count)) = 16` passes, each
pass pairwise-combines adjacent elements of the active buffer, and the single
remaining value in the active buffer equals the sum of the per-pixel values
written by `compare_all`. -/
theorem claim_C4 (p : ReduceBufferPair) (ha : p.a.length = 65536)
    (hb : p.b.length = 65536) :
    (halvings (IMAGE_SIZE * IMAGE_SIZE / 2)).length = Nat.clog 2 (IMAGE_SIZE * IMAGE_SIZE) ∧
    Nat.clog 2 (IMAGE_SIZE * IMAGE_SIZE) = 16 ∧
    (∀ n, n ≤ 65536 →
      (reduceOnce n p).a.take n
        = (List.range n).map (fun i => scoreAt p.a (2 * i) + scoreAt p.a (2 * i + 1))) ∧
    (reduceAll p).a.getD 0 0 = p.a.sum := by
  have hclog : Nat.clog 2 (IMAGE_SIZE * IMAGE_SIZE) = 16 := by
    rw [show IMAGE_SIZE * IMAGE_SIZE = 2 ^ 16 by norm_num [IMAGE_SIZE],
      Nat.clog_pow 2 16 (by norm_num)]
  refine ⟨?_, hclog, ?_, (reduceAll_sum ha hb).1⟩
  · rw [show IMAGE_SIZE * IMAGE_SIZE / 2 = 2 ^ 15 by norm_num [IMAGE_SIZE],
      halvings_two_pow_length, hclog]
  · intro n hn
    exact reduceKernel_take (by rw [hb]; exact hn)

theorem claim_C4_witness :
    (List.replicate 65536 (1 : ℕ)).length = 65536 ∧
    (List.replicate 65536 (0 : ℕ)).length = 65536 ∧
    ((halvings (IMAGE_SIZE * IMAGE_SIZE / 2)).length = Nat.clog 2 (IMAGE_SIZE * IMAGE_SIZE) ∧
      Nat.clog 2 (IMAGE_SIZE * IMAGE_SIZE) = 16 ∧
      (∀ n, n ≤ 65536 →
        (reduceOnce n ⟨List.replicate 65536 1, List.replicate 65536 0⟩).a.take n
          = (List.range n).map (fun i =>
              scoreAt (ReduceBufferPair.mk (List.replicate 65536 1)
                  (List.replicate 65536 0)).a (2 * i)
                + scoreAt (ReduceBufferPair.mk (List.replicate 65536 1)
                  (List.replicate 65536 0)).a (2 * i + 1))) ∧
      (reduceAll ⟨List.replicate 65536 1, List.replicate 65536 0⟩).a.getD 0 0
        = (ReduceBufferPair.mk (List.replicate 65536 1) (List.replicate 65536 0)).a.sum) :=
  ⟨by rw [List.length_replicate], by rw [List.length_replicate],
    claim_C4 ⟨List.replicate 65536 1, List.replicate 65536 0⟩ (by rw [List.length_replicate]) (by rw [List.length_replicate])⟩

lemma toPair_reduceOnce (n : ℕ) (p : PhysPair) :
    (p.reduceOnce n).toPair = reduceOnce n p.toPair := by
  cases p with
  | mk x y flag =>
    cases flag <;>
      simp [PhysPair.reduceOnce, PhysPair.toPair, PhysPair.roleA, PhysPair.roleB,
        reduceOnce, ReduceBufferPair.swap]

lemma toPair_foldl (l : List ℕ) (p : PhysPair) :
    (l.foldl (fun st n => st.reduceOnce n) p).toPair
      = l.foldl (fun st n => reduceOnce n st) p.toPair := by
  induction l generalizing p with
  | nil => rfl
  | cons n l ih =>
    simp only [List.foldl_cons]
    rw [ih, toPair_reduceOnce]

lemma physScore_eq (p : PhysPair) :
    p.reduceAll.score = (reduceAll p.toPair).a.getD 0 0 := by
  rw [show p.reduceAll.score = p.reduceAll.toPair.a.getD 0 0 from rfl,
    PhysPair.reduceAll, toPair_foldl]
  rfl

/-- C5. The score read by the Select stage after the reduction is the same in
two runs that differ only in which physical buffer holds the active role when
rating begins: only the logical active contents determine the score. -/
theorem claim_C5 (w s t : List ℕ) (hw : w.length = 65536) (hs : s.length = 65536)
    (ht : t.length = 65536) :
    (PhysPair.reduceAll ⟨w, s, true⟩).score = (PhysPair.reduceAll ⟨t, w, false⟩).score := by
  rw [physScore_eq, physScore_eq]
  have h1 : (PhysPair.mk w s true).toPair = ⟨w, s⟩ := rfl
  have h2 : (PhysPair.mk t w false).toPair = ⟨w, t⟩ := rfl
  rw [h1, h2,
    (reduceAll_sum (show (ReduceBufferPair.mk w s).a.length = 65536 from hw)
      (show (ReduceBufferPair.mk w s).b.length = 65536 from hs)).1,
    (reduceAll_sum (show (ReduceBufferPair.mk w t).a.length = 65536 from hw)
      (show (ReduceBufferPair.mk w t).b.length = 65536 from ht)).1]

theorem claim_C5_witness :
    (List.replicate 65536 (1 : ℕ)).length = 65536 ∧
    (List.replicate 65536 (0 : ℕ)).length = 65536 ∧
    (List.replicate 65536 (2 : ℕ)).length = 65536 ∧
    (PhysPair.reduceAll ⟨List.replicate 65536 1, List.replicate 65536 0, true⟩).score
      = (PhysPair.reduceAll ⟨List.replicate 65536 2, List.replicate 65536 1, false⟩).score :=
  ⟨by rw [List.length_replicate], by rw [List.length_replicate], by rw [List.length_replicate],
    claim_C5 (List.replicate 65536 1) (List.replicate 65536 0) (List.replicate 65536 2)
      (by rw [List.length_replicate]) (by rw [List.length_replicate]) (by rw [List.length_replicate])⟩

end Nephos
